import Mathlib

/-!
Verification development for the expenses statement-parsing engine.

The Python sources (pdf_parser.py, bank_parsers.py, merchant_extractor.py,
process_expenses.py) are shallowly embedded below: strings become lists of
characters, the regular expressions used by the code become explicit
matching functions with the same leftmost and greedy or lazy semantics,
and the scanning loops become folds over line indices.
-/

namespace Expenses

/-! ## Character classes (ASCII semantics of the Python regex classes) -/

def isDigitC (c : Char) : Bool := 48 ≤ c.toNat && c.toNat ≤ 57

def isWsC (c : Char) : Bool :=
  c = ' ' || c = '\t' || c = '\n' || c = '\r' ||
  c = Char.ofNat 11 || c = Char.ofNat 12

def isUpperAZ (c : Char) : Bool := 65 ≤ c.toNat && c.toNat ≤ 90

def isLowerAZ (c : Char) : Bool := 97 ≤ c.toNat && c.toNat ≤ 122

def isAlphaC (c : Char) : Bool := isUpperAZ c || isLowerAZ c

def isWordC (c : Char) : Bool := isAlphaC c || isDigitC c || c = '_'

def isAZ09 (c : Char) : Bool := isUpperAZ c || isDigitC c

def isDigitComma (c : Char) : Bool := isDigitC c || c = ','

def isDigitDot (c : Char) : Bool := isDigitC c || c = '.'

def upC (c : Char) : Char :=
  if isLowerAZ c then Char.ofNat (c.toNat - 32) else c

/-! ## List-of-characters utilities mirroring Python string operations -/

def upperL (l : List Char) : List Char := l.map upC

/-- Python str.strip: drop whitespace at both ends. -/
def pyStrip (l : List Char) : List Char :=
  ((l.dropWhile isWsC).reverse.dropWhile isWsC).reverse

/-- startsWithL pat hay: pat is an initial segment of hay. -/
def startsWithL : List Char → List Char → Bool
  | [], _ => true
  | _ :: _, [] => false
  | p :: ps, h :: hs => p = h && startsWithL ps hs

/-- Python substring containment: pat occurs somewhere in hay. -/
def containsC (hay pat : List Char) : Bool :=
  startsWithL pat hay ||
    (match hay with
     | [] => false
     | _ :: t => containsC t pat)

/-- Split on every character satisfying p, keeping empty pieces
(the behaviour of Python re.split on a single-character class and of
str.split with an explicit separator). -/
def splitAll (p : Char → Bool) (l : List Char) : List (List Char) :=
  l.foldr
    (fun c acc =>
      if p c then [] :: acc
      else
        match acc with
        | [] => [[c]]
        | t :: ts => (c :: t) :: ts)
    [[]]

/-- Python str.split with no argument: whitespace-run split, empties dropped. -/
def pySplitWs (l : List Char) : List (List Char) :=
  (splitAll isWsC l).filter (fun t => t ≠ [])

def joinSpace : List (List Char) → List Char
  | [] => []
  | [t] => t
  | t :: ts => t ++ ' ' :: joinSpace ts

/-- The idiom space-join of split: collapse whitespace and trim. -/
def collapseWs (l : List Char) : List Char := joinSpace (pySplitWs l)

def pyIsdigitL (l : List Char) : Bool := l ≠ [] && l.all isDigitC

def pyNatDigits (l : List Char) : Nat :=
  l.foldl (fun a c => a * 10 + (c.toNat - 48)) 0

def digitChar (n : Nat) : Char := Char.ofNat (48 + n)

def natStrAux : Nat → Nat → List Char
  | 0, _ => []
  | fuel + 1, n =>
    if n < 10 then [digitChar n]
    else natStrAux fuel (n / 10) ++ [digitChar (n % 10)]

/-- Decimal numeral of a natural number, as Python str. -/
def natStr (n : Nat) : List Char := natStrAux (n + 1) n

/-- Python str of an int, possibly negative. -/
def intStrL (i : Int) : List Char :=
  if i < 0 then '-' :: natStr i.natAbs else natStr i.toNat

def pyIntD (l : List Char) : Int := (pyNatDigits l : Int)

/-- Membership test on a list of strings (the seen set of the parsers). -/
def memB (l : List String) (s : String) : Bool := l.any (fun x => x = s)

def lineAt (lines : List String) (i : Nat) : String := lines.getD i ""

/-- Python text.split over the newline character, keeping empty lines. -/
def splitLines (text : String) : List String :=
  (splitAll (fun c => c = '\n') text.data).map String.mk

/-! ## Date token matchers -/

/-- re.match of the anchored pattern for a date token followed by a
description: one or two digits, slash, one or two digits, slash, two to
four digits, at least one whitespace, then a non-empty remainder.
Returns the date token and the raw description group. -/
def matchDateDesc (l : List Char) : Option (List Char × List Char) :=
  let m := l.takeWhile isDigitC
  let r1 := l.dropWhile isDigitC
  if m.length = 0 || 2 < m.length then none
  else
    match r1 with
    | '/' :: r2 =>
      let d := r2.takeWhile isDigitC
      let r3 := r2.dropWhile isDigitC
      if d.length = 0 || 2 < d.length then none
      else
        match r3 with
        | '/' :: r4 =>
          let y := r4.takeWhile isDigitC
          let r5 := r4.dropWhile isDigitC
          if y.length < 2 || 4 < y.length then none
          else
            let w := r5.takeWhile isWsC
            let rest := r5.dropWhile isWsC
            if w.length = 0 then none
            else if rest ≠ [] then some (m ++ '/' :: d ++ '/' :: y, rest)
            else if 2 ≤ w.length then
              match w.getLast? with
              | some c => some (m ++ '/' :: d ++ '/' :: y, [c])
              | none => none
            else none
        | _ => none
    | _ => none

/-- re.match of the fully anchored date-only pattern used by the split
layout: the whole line is a single date token. -/
def matchDateOnly (l : List Char) : Option (List Char) :=
  let m := l.takeWhile isDigitC
  let r1 := l.dropWhile isDigitC
  if m.length = 0 || 2 < m.length then none
  else
    match r1 with
    | '/' :: r2 =>
      let d := r2.takeWhile isDigitC
      let r3 := r2.dropWhile isDigitC
      if d.length = 0 || 2 < d.length then none
      else
        match r3 with
        | '/' :: r4 =>
          let y := r4.takeWhile isDigitC
          let r5 := r4.dropWhile isDigitC
          if y.length < 2 || 4 < y.length then none
          else if r5 = [] then some (m ++ '/' :: d ++ '/' :: y)
          else none
        | _ => none
    | _ => none

/-! ## Amount matchers -/

/-- The core currency group: one or more digits or commas, a dot, then
exactly two digits are captured; anything after them is ignored. -/
def amtCore (l : List Char) : Option (List Char) :=
  let run := l.takeWhile isDigitComma
  let r := l.dropWhile isDigitComma
  if run = [] then none
  else
    match r with
    | '.' :: d1 :: d2 :: _ =>
      if isDigitC d1 && isDigitC d2 then some (run ++ '.' :: [d1, d2]) else none
    | _ => none

/-- One attempt of the credit notation at a fixed position: a digit run,
a hyphen, a dollar sign, then the core amount group. -/
def tryCreditAt (l : List Char) : Option (List Char) :=
  let run := l.takeWhile isDigitC
  let r := l.dropWhile isDigitC
  if run = [] then none
  else
    match r with
    | '-' :: '$' :: r2 => amtCore r2
    | _ => none

/-- re.search of the credit notation: leftmost position wins. -/
def searchCredit : List Char → Option (List Char)
  | [] => none
  | c :: t =>
    match tryCreditAt (c :: t) with
    | some a => some a
    | none => searchCredit t

/-- One attempt of the standard notation at a fixed position: optional
minus, optional dollar sign, then the core amount group. The Bool is
whether the minus group matched. -/
def tryStdAt : List Char → Option (Bool × List Char)
  | '-' :: '$' :: r => (amtCore r).map (fun a => (true, a))
  | '-' :: r => (amtCore r).map (fun a => (true, a))
  | '$' :: r => (amtCore r).map (fun a => (false, a))
  | r => (amtCore r).map (fun a => (false, a))

/-- re.search of the standard notation: leftmost position wins. -/
def searchStd : List Char → Option (Bool × List Char)
  | [] => none
  | c :: t =>
    match tryStdAt (c :: t) with
    | some x => some x
    | none => searchStd t

def amtOnlyTail (r : List Char) : Bool :=
  let run := r.takeWhile isDigitComma
  let rest := r.dropWhile isDigitComma
  run ≠ [] &&
    (match rest with
     | '.' :: d1 :: d2 :: [] => isDigitC d1 && isDigitC d2
     | _ => false)

/-- re.match of the fully anchored amount-only pattern of the split
layout: optional minus, dollar sign, digits and commas, dot, exactly two
digits, end of line. -/
def matchAmountOnly (l : List Char) : Bool :=
  match l with
  | '-' :: '$' :: r => amtOnlyTail r
  | '$' :: r => amtOnlyTail r
  | _ => false

/-! ## Description cleanup (the two re.sub calls of the inline pass) -/

/-- re.sub removing an optional plus sign followed by ten or more digits
(phone numbers). Fuel-driven left-to-right scan; matches are deleted and
scanning continues after the match. -/
def subPhoneF : Nat → List Char → List Char
  | 0, l => l
  | _ + 1, [] => []
  | fuel + 1, c :: t =>
    if c = '+' then
      if 10 ≤ (t.takeWhile isDigitC).length then
        subPhoneF fuel (t.dropWhile isDigitC)
      else c :: subPhoneF fuel t
    else if isDigitC c then
      if 10 ≤ ((c :: t).takeWhile isDigitC).length then
        subPhoneF fuel ((c :: t).dropWhile isDigitC)
      else c :: subPhoneF fuel t
    else c :: subPhoneF fuel t

def subPhone (l : List Char) : List Char := subPhoneF l.length l

/-- Backtracking of the greedy quantifier in the reference-code pattern:
try the class run length k downwards to six; on success return the full
match length including the whitespace run and the five digits. -/
def refTry (l : List Char) : Nat → Option Nat
  | 0 => none
  | k + 1 =>
    if k + 1 < 6 then none
    else
      let after := l.drop (k + 1)
      let w := (after.takeWhile isWsC).length
      let ds := (after.drop w).take 5
      if ds.length = 5 && ds.all isDigitC then some (k + 1 + w + 5)
      else refTry l k

/-- Match length of the reference-code pattern (six or more uppercase
letters or digits, optional whitespace, five digits) at this position. -/
def refMatchLen (l : List Char) : Option Nat :=
  refTry l (l.takeWhile isAZ09).length

/-- re.sub removing reference codes. -/
def subRefF : Nat → List Char → List Char
  | 0, l => l
  | _ + 1, [] => []
  | fuel + 1, c :: t =>
    if isAZ09 c then
      match refMatchLen (c :: t) with
      | some n => subRefF fuel ((c :: t).drop n)
      | none => c :: subRefF fuel t
    else c :: subRefF fuel t

def subRef (l : List Char) : List Char := subRefF l.length l

/-- The full description cleanup of the inline pass: phone-number sub,
reference-code sub, whitespace collapse. -/
def cleanDescription (l : List Char) : List Char :=
  collapseWs (subRef (subPhone l))

/-! ## Transaction records and parser state -/

structure Tx where
  date : String
  description : String
  amount : String
  bank : String
  card : String
deriving DecidableEq, Repr

/-- Parser state: transactions emitted so far, each paired with its dedup
key, and the seen-keys set (the Python set is modelled as a list). -/
structure PState where
  emitted : List (String × Tx)
  seen : List String
deriving DecidableEq, Repr

def mkKey (date desc amt : List Char) : String :=
  String.mk (date ++ '_' :: desc ++ '_' :: amt)

def paymentKeywords : List (List Char) :=
  [("THANK YOU" : String).data, ("MOBILE PAYMENT" : String).data,
   ("PAYMENT - THANK YOU" : String).data, ("AUTOPAY" : String).data]

def closingDateChars : List Char := ("Closing Date" : String).data

def kwHitB (desc : List Char) : Bool :=
  paymentKeywords.any (fun kw => containsC (upperL desc) kw)

/-- Indices of the following lines to check for the amount. -/
def linesToCheck (i n : Nat) : List Nat :=
  if i + 2 < n then [i + 1, i + 2]
  else if i + 1 < n then [i + 1] else []

/-- Scan the candidate amount lines in order; on each line the credit
notation has priority over the standard one; stop at the first line with
a match of either. Returns the credit flag and the raw matched amount. -/
def resolveFrom (lines : List String) : List Nat → Option (Bool × List Char)
  | [] => none
  | j :: rest =>
    let nl := pyStrip (lineAt lines j).data
    match searchCredit nl with
    | some a => some (true, a)
    | none =>
      match searchStd nl with
      | some x => some x
      | none => resolveFrom lines rest

/-- One iteration of the inline-date scanning loop shared verbatim by
BankStatementParser.parse_transactions and format 1 of
AmexParser.parse_transactions. -/
def inlineStep (bank card : String) (lines : List String) (st : PState) (i : Nat) :
    PState :=
  let line := pyStrip (lineAt lines i).data
  match matchDateDesc line with
  | none => st
  | some (dt, rawDesc) =>
    if containsC line closingDateChars then st
    else
      let desc0 := pyStrip rawDesc
      if kwHitB desc0 then st
      else
        match resolveFrom lines (linesToCheck i lines.length) with
        | none => st
        | some (isCred, amt) =>
          if desc0.length ≤ 2 then st
          else
            let desc1 := cleanDescription desc0
            if desc1.length ≤ 2 then st
            else
              let key := mkKey dt desc1 amt
              if memB st.seen key then st
              else
                let base := amt.filter (fun c => c ≠ ',')
                let finalAmt := if isCred then '-' :: base else base
                { emitted :=
                    st.emitted ++
                      [(key,
                        { date := String.mk dt, description := String.mk desc1,
                          amount := String.mk finalAmt, bank := bank, card := card })],
                  seen := key :: st.seen }

def inlineFold (bank card : String) (lines : List String) : PState :=
  (List.range lines.length).foldl (inlineStep bank card lines) ⟨[], []⟩

/-- BankStatementParser.parse_transactions of pdf_parser.py. -/
def bankStatementParse (bank card text : String) : List Tx :=
  ((inlineFold bank card (splitLines text)).emitted.map Prod.snd)

/-! ## Split amount-then-date layout (format 2 of AmexParser) -/

def f2Keywords : List (List Char) :=
  [("THANK YOU" : String).data, ("MOBILE PAYMENT" : String).data,
   ("PAYMENT" : String).data, ("AUTOPAY" : String).data]

/-- Gather description lines: stop at the next amount-only or date-only
line, skip empty, one-character and all-digit lines, stop once three
parts were collected. -/
def gatherDesc (lines : List String) : List Nat → List (List Char) → List (List Char)
  | [], acc => acc
  | j :: rest, acc =>
    let dl := pyStrip (lineAt lines j).data
    if matchAmountOnly dl || (matchDateOnly dl).isSome then acc
    else
      let acc' :=
        if dl ≠ [] && 1 < dl.length && !(pyIsdigitL dl) then acc ++ [dl] else acc
      if 3 ≤ acc'.length then acc' else gatherDesc lines rest acc'

/-- One iteration of the split-layout scanning loop of
AmexParser.parse_transactions (format 2). -/
def f2Step (bank card : String) (lines : List String) (st : PState) (i : Nat) :
    PState :=
  let line := pyStrip (lineAt lines i).data
  if matchAmountOnly line && decide (i + 1 < lines.length) then
    let isCred := line.head? = some '-'
    let amt := line.filter (fun c => c ≠ '$' && c ≠ '-' && c ≠ ',')
    let nl := pyStrip (lineAt lines (i + 1)).data
    match matchDateOnly nl with
    | none => st
    | some dt =>
      let checkLine := pyStrip (lineAt lines (i + 2)).data
      if decide (i + 2 < lines.length) &&
          f2Keywords.any (fun kw => containsC (upperL checkLine) kw) then st
      else
        let count := min (i + 10) lines.length - (i + 2)
        let parts := gatherDesc lines (List.range' (i + 2) count) []
        if parts = [] then st
        else
          let description := pyStrip (joinSpace (parts.take 5))
          let desc1 := collapseWs (subPhone description)
          if desc1.length ≤ 2 then st
          else
            let key := mkKey dt desc1 amt
            if memB st.seen key then st
            else
              let finalAmt := if isCred then '-' :: amt else amt
              { emitted :=
                  st.emitted ++
                    [(key,
                      { date := String.mk dt, description := String.mk desc1,
                        amount := String.mk finalAmt, bank := bank, card := card })],
                seen := key :: st.seen }
  else st

def f2Fold (bank card : String) (lines : List String) (st : PState) : PState :=
  (List.range lines.length).foldl (f2Step bank card lines) st

def amexBankName : String := "American Express"

/-- AmexParser.parse_transactions: the inline pass, then, when it yielded
fewer than five transactions, the split pass continuing with the shared
transaction list and seen set. -/
def amexParse (card text : String) : List Tx :=
  let lines := splitLines text
  let st1 := inlineFold amexBankName card lines
  let st2 :=
    if st1.emitted.length < 5 then f2Fold amexBankName card lines st1 else st1
  st2.emitted.map Prod.snd

/-! ## The aggregator sort (process_expenses.py and the pdf_parser main) -/

/-- Python string comparison: lexicographic on code points. -/
def lexLtC : List Char → List Char → Bool
  | [], [] => false
  | [], _ :: _ => true
  | _ :: _, [] => false
  | a :: xs, b :: ys =>
    if a.toNat < b.toNat then true
    else if b.toNat < a.toNat then false
    else lexLtC xs ys

/-- Insert keeping the list sorted descending by the date string; equal
dates keep their relative order, matching the stable Python sort with
reverse set. -/
def insDesc (t : Tx) : List Tx → List Tx
  | [] => [t]
  | u :: us =>
    if lexLtC u.date.data t.date.data then t :: u :: us else u :: insDesc t us

def sortDesc (ts : List Tx) : List Tx :=
  ts.foldl (fun acc t => insDesc t acc) []

/-- The aggregator: concatenate the per-statement lists and sort by the
date string, newest first (list.sort with the date key and reverse). -/
def aggregateTransactions (tss : List (List Tx)) : List Tx :=
  sortDesc tss.flatten

/-! ## Bank of America parser -/

def bofaBankName : String := "Bank of America"

/-- One attempt of the closing-date pattern at a fixed position: one or
two digits, slash, one or two digits, slash, four digits. Returns the
month digits and the year digits. -/
def tryClosingAt (l : List Char) : Option (List Char × List Char) :=
  let m := l.takeWhile isDigitC
  let r1 := l.dropWhile isDigitC
  if m.length = 0 || 2 < m.length then none
  else
    match r1 with
    | '/' :: r2 =>
      let d := r2.takeWhile isDigitC
      let r3 := r2.dropWhile isDigitC
      if d.length = 0 || 2 < d.length then none
      else
        match r3 with
        | '/' :: r4 =>
          let y := r4.take 4
          if y.length = 4 && y.all isDigitC then some (m, y) else none
        | _ => none
    | _ => none

def searchClosing : List Char → Option (List Char × List Char)
  | [] => none
  | c :: t =>
    match tryClosingAt (c :: t) with
    | some x => some x
    | none => searchClosing t

/-- One attempt of the period pattern at a fixed position: word run,
whitespace, digits, optional whitespace, hyphen, optional whitespace,
word run, whitespace, digits, comma, optional whitespace, four digits.
Returns the second word group (end month name) and the year digits. -/
def tryPeriodAt (l : List Char) : Option (List Char × List Char) :=
  let w1 := l.takeWhile isWordC
  let r1 := l.dropWhile isWordC
  if w1 = [] then none
  else
    let s1 := r1.takeWhile isWsC
    let r2 := r1.dropWhile isWsC
    if s1 = [] then none
    else
      let d1 := r2.takeWhile isDigitC
      let r3 := r2.dropWhile isDigitC
      if d1 = [] then none
      else
        let r4 := r3.dropWhile isWsC
        match r4 with
        | '-' :: r5 =>
          let r6 := r5.dropWhile isWsC
          let w2 := r6.takeWhile isWordC
          let r7 := r6.dropWhile isWordC
          if w2 = [] then none
          else
            let s4 := r7.takeWhile isWsC
            let r8 := r7.dropWhile isWsC
            if s4 = [] then none
            else
              let d2 := r8.takeWhile isDigitC
              let r9 := r8.dropWhile isDigitC
              if d2 = [] then none
              else
                match r9 with
                | ',' :: r10 =>
                  let r11 := r10.dropWhile isWsC
                  let y := r11.take 4
                  if y.length = 4 && y.all isDigitC then some (w2, y) else none
                | _ => none
        | _ => none

def searchPeriod : List Char → Option (List Char × List Char)
  | [] => none
  | c :: t =>
    match tryPeriodAt (c :: t) with
    | some x => some x
    | none => searchPeriod t

def monthMap : List (String × Nat) :=
  [("January", 1), ("February", 2), ("March", 3), ("April", 4), ("May", 5),
   ("June", 6), ("July", 7), ("August", 8), ("September", 9), ("October", 10),
   ("November", 11), ("December", 12)]

def monthLookup (name : List Char) : Option Nat :=
  (monthMap.find? (fun e => e.1 = String.mk name)).map Prod.snd

/-- The header loop: first line whose closing-date pattern matches with
the Closing Date phrase present, otherwise first line matching the period
pattern (whose unknown month names leave the month unresolved). -/
def bofaHeader : List String → Option (String × Option Nat)
  | [] => none
  | line :: rest =>
    match searchClosing line.data with
    | some (m, y) =>
      if containsC line.data closingDateChars then
        some (String.mk y, some (pyNatDigits m))
      else
        match searchPeriod line.data with
        | some (mon2, y4) => some (String.mk y4, monthLookup mon2)
        | none => bofaHeader rest
    | none =>
      match searchPeriod line.data with
      | some (mon2, y4) => some (String.mk y4, monthLookup mon2)
      | none => bofaHeader rest

/-- The statement metadata with the default fallback. -/
def bofaMeta (lines : List String) : String × Option Nat :=
  match bofaHeader lines with
  | some p => p
  | none => ("2025", some 12)

def markerChars : List Char := ("Purchases and Adjustments" : String).data

/-- re.search for a dollar amount on the line. -/
def searchDollarB : List Char → Bool
  | [] => false
  | '$' :: r => (amtCore r).isSome || searchDollarB r
  | _ :: r => searchDollarB r

/-- The marker scan: index one past the first line containing the
section marker with no dollar amount on it. -/
def findStart : List String → Nat → Option Nat
  | [], _ => none
  | line :: rest, i =>
    if containsC line.data markerChars && !(searchDollarB line.data) then
      some (i + 1)
    else findStart rest (i + 1)

/-- The suffix of the transaction line after the two dates: at least one
whitespace, a lazy non-empty middle, at least one whitespace, then a
non-empty run of digits and dots reaching the end of the line. Engine
order: the leading whitespace is greedy, the middle is lazy. -/
def wsAmtEnd (t : List Char) : Option (List Char) :=
  let w := t.takeWhile isWsC
  let r := t.dropWhile isWsC
  if w = [] then none
  else if r ≠ [] && r.all isDigitDot then some r else none

def descScan (taken : List Char) : List Char → Option (List Char × List Char)
  | [] => none
  | c :: t =>
    match wsAmtEnd t with
    | some amt => some (taken ++ [c], amt)
    | none => descScan (taken ++ [c]) t

def tailTryK (s : List Char) : Nat → Option (List Char × List Char)
  | 0 => none
  | k + 1 =>
    match descScan [] (s.drop (k + 1)) with
    | some r => some r
    | none => tailTryK s k

def matchTail (s : List Char) : Option (List Char × List Char) :=
  tailTryK s (s.takeWhile isWsC).length

/-- re.match of the anchored Bank of America transaction line pattern:
two two-digit slash dates separated and followed by whitespace, a lazy
description group, whitespace, and a trailing digits-and-dots amount.
Returns the transaction date, the raw description group and the amount. -/
def matchBofaLine (l : List Char) : Option (List Char × List Char × List Char) :=
  match l with
  | a :: b :: '/' :: c :: d :: rest =>
    if isDigitC a && isDigitC b && isDigitC c && isDigitC d then
      let w1 := rest.takeWhile isWsC
      let r1 := rest.dropWhile isWsC
      if w1 = [] then none
      else
        match r1 with
        | e :: f :: '/' :: g :: h :: rest2 =>
          if isDigitC e && isDigitC f && isDigitC g && isDigitC h then
            match matchTail rest2 with
            | some (desc, amt) => some ([a, b, '/', c, d], desc, amt)
            | none => none
          else none
        | _ => none
    else none
  | _ => none

/-- Python str.isupper on a token: it has a cased character and no
lowercase character. -/
def pyIsUpperTok (t : List Char) : Bool :=
  t.any isAlphaC && t.all (fun c => !(isLowerAZ c))

/-- Index of the first token that is exactly two characters and
uppercase (the state-code heuristic). -/
def stateScan : List (List Char) → Nat → Option Nat
  | [], _ => none
  | p :: rest, j =>
    if p.length = 2 && pyIsUpperTok p then some j else stateScan rest (j + 1)

/-- The year resolution rule: previous year when the transaction month
exceeds the statement closing month. -/
def bofaYear (stY : String) (m stM : Nat) : List Char :=
  if stM < m then intStrL (pyIntD stY.data - 1) else stY.data

def stopKeywords : List (List Char) :=
  [("TOTAL PURCHASES" : String).data, ("Interest Charged" : String).data,
   ("Fees Charged" : String).data, ("Page " : String).data]

def crChars : List Char := ("CR" : String).data

/-- Bank of America scanning state: the done flag models the section
break, the crashed flag models the runtime comparison of an int with
None when the period line held an unknown month name. -/
structure BState where
  done : Bool
  crashed : Bool
  emitted : List (String × Tx)
  seen : List String
deriving DecidableEq, Repr

/-- The description heuristic of the Bank of America parser: split into
tokens, locate the first two-character uppercase token, keep everything
before the token preceding it (all but the last token when it is the
first token), falling back to the first four tokens. -/
def bofaDescOf (desc3 : List Char) : List Char :=
  let parts := pySplitWs desc3
  let dp0 :=
    match stateScan parts 0 with
    | some 0 => parts.dropLast
    | some (j + 1) => parts.take j
    | none => []
  let dp := if dp0 = [] then parts.take (min 4 parts.length) else dp0
  pyStrip (joinSpace dp)

/-- The amount variable after the credit branch stripped hyphens. -/
def bofaAmt1 (isCred : Bool) (amt : List Char) : List Char :=
  if isCred then amt.filter (fun c => c ≠ '-') else amt

/-- The stored amount: commas removed, minus sign prefixed for credits. -/
def bofaFinalAmt (isCred : Bool) (amt1 : List Char) : List Char :=
  let base := amt1.filter (fun c => c ≠ ',')
  if isCred then '-' :: base else base

/-- One iteration of the BankOfAmericaParser.parse_transactions loop. -/
def bofaStep (card : String) (stY : String) (stM : Option Nat) (st : BState)
    (line0 : String) : BState :=
  if st.done || st.crashed then st
  else
    let line := pyStrip line0.data
    if stopKeywords.any (fun k => containsC line k) then { st with done := true }
    else
      match matchBofaLine line with
      | none => st
      | some (td, desc3, amt) =>
        match stM with
        | none => { st with crashed := true }
        | some M =>
          let m := pyNatDigits (td.takeWhile (fun c => c ≠ '/'))
          let fullDate := td ++ '/' :: bofaYear stY m M
          let desc := bofaDescOf desc3
          if desc = [] then st
          else
            let isCred := containsC line crChars || line.getLast? = some '-'
            let amt1 := bofaAmt1 isCred amt
            let key := mkKey fullDate desc amt1
            if memB st.seen key then st
            else
              { st with
                emitted :=
                  st.emitted ++
                    [(key,
                      { date := String.mk fullDate, description := String.mk desc,
                        amount := String.mk (bofaFinalAmt isCred amt1),
                        bank := bofaBankName, card := card })],
                seen := key :: st.seen }

def bofaScan (card : String) (lines : List String) (start : Nat)
    (stY : String) (stM : Option Nat) : BState :=
  (lines.drop start).foldl (bofaStep card stY stM) ⟨false, false, [], []⟩

/-- BankOfAmericaParser.parse_transactions. The none result models the
uncaught runtime error raised when a transaction line is reached while
the statement month is unresolved. -/
def bofaParse (card text : String) : Option (List Tx) :=
  let lines := splitLines text
  let meta := bofaMeta lines
  match findStart lines 0 with
  | none => some []
  | some start =>
    let st := bofaScan card lines start meta.1 meta.2
    if st.crashed then none else some (st.emitted.map Prod.snd)

/-! ## Merchant name extractor (merchant_extractor.py) -/

def apos : Char := Char.ofNat 39

def lowesApos : String := "LOWE" ++ String.singleton apos ++ "S"

def mcdApos : String := "MCDONALD" ++ String.singleton apos ++ "S"

/-- The merchant pattern table in source order; every regex value of the
Python dict is an alternation of literals, expanded here into the list of
its alternatives, matched case-insensitively as substrings. -/
def MERCHANT_PATTERNS : List (List String × String) :=
  [(["UBER", "UberXL", "UBER EATS"], "Uber"),
   (["NETFLIX", "NETFLIX.COM"], "Netflix"),
   (["DISNEY", "DISNEYPLUS"], "Disney+"),
   (["AMAZON", "AMZN"], "Amazon"),
   (["WALMART", "WAL-MART"], "Walmart"),
   (["CVS", "CVS/PHARMACY"], "CVS Pharmacy"),
   (["WHOLE FOODS", "WHOLEFOODS"], "Whole Foods"),
   (["TARGET", "TGT"], "Target"),
   (["COSTCO", "COSTCO WHOLESALE"], "Costco"),
   (["BEST BUY", "BESTBUY"], "Best Buy"),
   (["HOME DEPOT", "HOMEDEPOT"], "Home Depot"),
   (["LOWES", lowesApos], "Lowes"),
   (["CHIPOTLE", "CHIPOLTE"], "Chipotle"),
   (["STARBUCKS", "SBUX"], "Starbucks"),
   (["MCDONALDS", mcdApos, "MCDONALDs"], "McDonalds"),
   (["CHICKFILA", "CHICK-FILA", "CHICKFIL-A", "CHICK-FIL-A"], "Chick-fil-A"),
   (["PANERA", "PANERA BREAD"], "Panera"),
   (["TACO BELL", "TACOBELL"], "Taco Bell"),
   (["STARBUCKS"], "Starbucks"),
   (["OPENAI", "CHATGPT"], "OpenAI"),
   (["GOOGLE", "GOOGLE PLAY"], "Google"),
   (["APPLE", "ITUNES", "APP STORE"], "Apple"),
   (["MICROSOFT", "XBOX"], "Microsoft"),
   (["SPOTIFY"], "Spotify"),
   (["HULU"], "Hulu"),
   (["MAX", "HBO"], "Max/HBO"),
   (["YELLOW CAB", "YELLOW TAXI"], "Yellow Cab"),
   (["LYFT"], "Lyft"),
   (["AIRBNB", "AIR BNB"], "Airbnb"),
   (["HOTEL", "INN", "RESORT"], "Hotel"),
   (["AIRLINE", "DELTA", "UNITED", "AMERICAN", "SOUTHWEST"], "Airline"),
   (["SHELL", "EXXON", "CHEVRON", "MOBIL"], "Gas Station"),
   (["CVS", "WALGREENS", "RITE AID", "PHARMACY"], "Pharmacy"),
   (["WHOLE FOODS", "KROGER", "SAFEWAY", "TRADER JOES", "SPROUTS"], "Grocery")]

/-- Case-insensitive substring containment of a literal. -/
def ciContains (hay pat : String) : Bool :=
  containsC (upperL hay.data) (upperL pat.data)

def mePrefixAlts : List (List Char) :=
  [("AplPay" : String).data, ("Apply" : String).data, ("Apay" : String).data,
   ("PAY*" : String).data, ("TST*" : String).data, ("POS*" : String).data]

def startsWithCI (pat l : List Char) : Bool :=
  startsWithL (upperL pat) (upperL l)

/-- re.sub of the anchored payment-method prefix pattern: an alternative
matched case-insensitively at the start followed by whitespace is
removed, whitespace included. -/
def stripPrefPay (l : List Char) : List Char :=
  match mePrefixAlts.find?
      (fun a => startsWithCI a l && (l.drop a.length).takeWhile isWsC ≠ []) with
  | some a => (l.drop a.length).dropWhile isWsC
  | none => l

/-- Backtracking of the two-or-more-digits quantifier in the trailing
location pattern, from the maximal run downwards. -/
def sfxBTryK (r : List Char) : Nat → Bool
  | 0 => false
  | k + 1 =>
    (2 ≤ k + 1 &&
      (let t2 := (r.drop (k + 1)).dropWhile (fun c => c = '-' || isWsC c)
       match t2 with
       | a :: b :: rest => isWordC a && isWordC b && rest.all isWsC
       | _ => false)) ||
    sfxBTryK r k

/-- The trailing location pattern at a fixed position: whitespace, two or
more digits, optional hyphens or whitespace, two word characters, then
only whitespace up to the end. -/
def sfxBMatchAt (l : List Char) : Bool :=
  let w := l.takeWhile isWsC
  if w = [] then false
  else
    let r := l.dropWhile isWsC
    sfxBTryK r (r.takeWhile isDigitC).length

/-- re.sub deleting everything from the first position where the
trailing location pattern matches to the end of the string. -/
def subSfxB : List Char → List Char
  | [] => []
  | c :: t => if isWsC c && sfxBMatchAt (c :: t) then [] else c :: subSfxB t

/-- The long-reference-number pattern at a fixed position: whitespace
then nine or more digits; the rest of the string is swallowed. -/
def sfxCMatchAt (l : List Char) : Bool :=
  let w := l.takeWhile isWsC
  w ≠ [] && 9 ≤ ((l.dropWhile isWsC).takeWhile isDigitC).length

def subSfxC : List Char → List Char
  | [] => []
  | c :: t => if isWsC c && sfxCMatchAt (c :: t) then [] else c :: subSfxC t

def medClass (c : Char) : Bool := isUpperAZ c || isWsC c || c = '&' || c = '/'

/-- The continuation alternatives of the facility-name pattern: some
whitespace then a digit, a hyphen, two zeros, or the end of the string. -/
def medCont (t : List Char) : Bool :=
  match t with
  | [] => true
  | c :: _ =>
    c = '-' || startsWithL [('0' : Char), '0'] t ||
      (isWsC c &&
        (match (t.dropWhile isWsC).head? with
         | some d => isDigitC d
         | none => false))

/-- Lazy growth of the facility-name group: extend one class character
at a time and stop as soon as a continuation alternative matches. -/
def medGrow (acc : List Char) : List Char → Option (List Char)
  | [] => none
  | c :: t =>
    if medClass c then
      let acc' := acc ++ [c]
      if medCont t then some acc' else medGrow acc' t
    else none

/-- re.match of the anchored facility-name pattern: an uppercase letter,
then a lazy run of uppercase letters, whitespace, ampersands or slashes,
stopped by the first continuation alternative. -/
def medMatch (l : List Char) : Option (List Char) :=
  match l with
  | c :: t => if isUpperAZ c then medGrow [c] t else none
  | [] => none

/-- Collect up to two meaningful split parts: longer than two
characters, not all digits, not a bare two-letter uppercase code. -/
def pickParts : List (List Char) → List (List Char) → List (List Char)
  | [], acc => acc
  | p :: rest, acc =>
    if p ≠ [] && 2 < p.length && !(pyIsdigitL p) &&
        !(p.length = 2 && p.all isUpperAZ) then
      let acc' := acc ++ [p]
      if 2 ≤ acc'.length then acc' else pickParts rest acc'
    else pickParts rest acc

/-- The split fallback of the heuristic extraction. -/
def fallbackSplit (cleaned : List Char) : Option String :=
  let parts := splitAll (fun c => isWsC c || c = '#' || c = '-' || c = '*') cleaned
  let merchantParts := pickParts parts []
  if merchantParts ≠ [] then some (String.mk (joinSpace merchantParts))
  else
    let firstWord := parts.headD []
    if 2 < firstWord.length then some (String.mk firstWord) else none

/-- MerchantExtractor underscore extract-from-description. -/
def extractFromDescription (description : String) : Option String :=
  let c1 := stripPrefPay description.data
  let c2 := subSfxB c1
  let c3 := subSfxC c2
  match medMatch c3 with
  | some g =>
    let name := pyStrip g
    if 3 < name.length then some (String.mk name) else fallbackSplit c3
  | none => fallbackSplit c3

/-- MerchantExtractor.extract_merchant. -/
def extractMerchant (description : String) : String :=
  if description = "" then "Unknown"
  else
    match MERCHANT_PATTERNS.find?
        (fun e => e.1.any (fun alt => ciContains description alt)) with
    | some e => e.2
    | none =>
      match extractFromDescription description with
      | some m => if m = "" then "Unknown" else m
      | none => "Unknown"

/-! ## Stated properties -/

/-- The text after the last slash of a date string. -/
def yearCompL (l : List Char) : List Char :=
  (l.reverse.takeWhile (fun c => c ≠ '/')).reverse

/-- The year component is a concrete four-digit value. -/
def fourDigitYearB (s : String) : Bool :=
  (yearCompL s.data).length = 4 && (yearCompL s.data).all isDigitC

/-- The year component is a digit token of two to four characters, the
shape the date regexes admit. -/
def dateShapeB (s : String) : Bool :=
  2 ≤ (yearCompL s.data).length && (yearCompL s.data).length ≤ 4 &&
    (yearCompL s.data).all isDigitC

def dateGeB (a b : Tx) : Bool := !(lexLtC a.date.data b.date.data)

/-- Adjacent pairs are non-increasing in the string order of dates. -/
def chainGe : List Tx → Bool
  | a :: b :: r => dateGeB a b && chainGe (b :: r)
  | _ => true

/-- Calendar key of a slash date: year, then month, then day. -/
def dateKeyCal (s : String) : Nat :=
  match splitAll (fun c => c = '/') s.data with
  | [m, d, y] => pyNatDigits y * 10000 + pyNatDigits m * 100 + pyNatDigits d
  | _ => 0

def calGeB (a b : Tx) : Bool := dateKeyCal b.date ≤ dateKeyCal a.date

/-- Adjacent pairs are non-increasing in calendar order. -/
def chainCalGe : List Tx → Bool
  | a :: b :: r => calGeB a b && chainCalGe (b :: r)
  | _ => true

def tripleEq (a b : Tx) : Bool :=
  a.date = b.date && a.description = b.description && a.amount = b.amount

/-- No two records share the date, description and amount triple. -/
def tripleDistinctB : List Tx → Bool
  | [] => true
  | t :: r => r.all (fun u => !(tripleEq t u)) && tripleDistinctB r

/-! ## Concrete statement texts used by the claims -/

def c5Text : String := "08/15/24 WALMART.COM 800-925-6278\n$45.23"

def c6Text : String :=
  "01/02/24 SHOP STUFF\n$1,234.56\n01/02/24 SHOP STUFF\n$1234.56"

def c2TextA : String := "01/15/2025 STORE AAA\n$5.00"

def c2TextB : String := "12/01/2024 STORE BBB\n$6.00"

def c4TextA : String :=
  "Statement Closing Date 12/20/2025\nPurchases and Adjustments\n" ++
  "07/05 07/06 STORE NAME ROGERS AR 9098 2361 21.50\nTOTAL PURCHASES"

def c4TextB : String :=
  "Statement Closing Date 01/20/2025\nPurchases and Adjustments\n" ++
  "12/05 12/06 STORE NAME ROGERS AR 9098 2361 21.50\nTOTAL PURCHASES"

/-! ## Helper lemmas -/

theorem all_takeWhile (p : Char → Bool) :
    ∀ l : List Char, (l.takeWhile p).all p = true := by
  intro l
  induction l with
  | nil => rfl
  | cons c t ih =>
    by_cases hc : p c
    · simp only [List.takeWhile_cons, hc, if_true, List.all_cons, hc, Bool.true_and]
      exact ih
    · simp [List.takeWhile_cons, hc]

theorem takeWhile_append_stop (p : Char → Bool) (c : Char) (hc : p c = false) :
    ∀ (xs t : List Char), xs.all p = true → (xs ++ c :: t).takeWhile p = xs := by
  intro xs
  induction xs with
  | nil => intro t _; simp [List.takeWhile_cons, hc]
  | cons x xs ih =>
    intro t hall
    rcases List.all_cons .. ▸ hall |> Bool.and_eq_true_iff.mp with ⟨hx, hxs⟩
    simp [List.takeWhile_cons, hx, ih t hxs]

theorem digit_all_ne_slash (y : List Char) (h : y.all isDigitC = true) :
    y.all (fun c => c ≠ '/') = true := by
  rw [List.all_eq_true] at h ⊢
  intro c hc
  have hd := h c hc
  by_contra hne
  simp only [decide_eq_true_eq] at hne
  push_neg at hne
  subst hne
  simp [isDigitC] at hd

theorem yearCompL_append (a y : List Char) (hy : y.all (fun c => c ≠ '/') = true) :
    yearCompL (a ++ '/' :: y) = y := by
  unfold yearCompL
  have h1 : (a ++ '/' :: y).reverse = y.reverse ++ '/' :: a.reverse := by
    simp
  rw [h1, takeWhile_append_stop _ '/' (by decide) _ _ (by simpa using hy),
    List.reverse_reverse]

theorem dateShapeB_of_parts (m d y : List Char) (hy : y.all isDigitC = true)
    (h2 : 2 ≤ y.length) (h4 : y.length ≤ 4) :
    dateShapeB (String.mk (m ++ '/' :: d ++ '/' :: y)) = true := by
  have hslash : yearCompL (m ++ '/' :: d ++ '/' :: y) = y := by
    have := yearCompL_append (m ++ '/' :: d) y (digit_all_ne_slash y hy)
    simpa using this
  simp only [dateShapeB]
  change (2 ≤ (yearCompL (m ++ '/' :: d ++ '/' :: y)).length &&
    (yearCompL (m ++ '/' :: d ++ '/' :: y)).length ≤ 4 &&
    (yearCompL (m ++ '/' :: d ++ '/' :: y)).all isDigitC) = true
  rw [hslash]
  simp [h2, h4, hy]

theorem matchDateDesc_shape (l dt r : List Char)
    (h : matchDateDesc l = some (dt, r)) : dateShapeB (String.mk dt) = true := by
  unfold matchDateDesc at h
  dsimp only at h
  split at h
  · exact absurd h (by simp)
  · split at h
    · split at h
      · exact absurd h (by simp)
      · split at h
        · split at h
          · exact absurd h (by simp)
          · split at h
            · exact absurd h (by simp)
            · split at h
              · rw [Option.some.injEq] at h
                injection h with hdt hr
                subst hdt
                apply dateShapeB_of_parts
                · exact all_takeWhile isDigitC _
                · simp only [Bool.or_eq_true, decide_eq_true_eq, not_or] at *
                  omega
                · simp only [Bool.or_eq_true, decide_eq_true_eq, not_or] at *
                  omega
              · split at h
                · split at h
                  · rw [Option.some.injEq] at h
                    injection h with hdt hr
                    subst hdt
                    apply dateShapeB_of_parts
                    · exact all_takeWhile isDigitC _
                    · simp only [Bool.or_eq_true, decide_eq_true_eq, not_or] at *
                      omega
                    · simp only [Bool.or_eq_true, decide_eq_true_eq, not_or] at *
                      omega
                  · exact absurd h (by simp)
                · exact absurd h (by simp)
        · exact absurd h (by simp)
    · exact absurd h (by simp)

theorem matchDateOnly_shape (l dt : List Char)
    (h : matchDateOnly l = some dt) : dateShapeB (String.mk dt) = true := by
  unfold matchDateOnly at h
  dsimp only at h
  split at h
  · exact absurd h (by simp)
  · split at h
    · split at h
      · exact absurd h (by simp)
      · split at h
        · split at h
          · exact absurd h (by simp)
          · split at h
            · rw [Option.some.injEq] at h
              rw [← h]
              apply dateShapeB_of_parts
              · exact all_takeWhile isDigitC _
              · simp only [Bool.or_eq_true, decide_eq_true_eq, not_or] at *
                omega
              · simp only [Bool.or_eq_true, decide_eq_true_eq, not_or] at *
                omega
            · exact absurd h (by simp)
        · exact absurd h (by simp)
    · exact absurd h (by simp)

theorem takeWhile_ne_nil_head (p : Char → Bool) (l : List Char)
    (h : l.takeWhile p ≠ []) : ∃ c t, l = c :: t ∧ p c = true := by
  cases l with
  | nil => simp [List.takeWhile] at h
  | cons c t =>
    by_cases hc : p c
    · exact ⟨c, t, rfl, hc⟩
    · simp [List.takeWhile_cons, hc] at h

theorem matchDateDesc_head (l : List Char) (x : List Char × List Char)
    (h : matchDateDesc l = some x) : ∃ c t, l = c :: t ∧ isDigitC c = true := by
  unfold matchDateDesc at h
  dsimp only at h
  split at h
  · exact absurd h (by simp)
  · next hguard =>
    apply takeWhile_ne_nil_head isDigitC
    intro hnil
    simp only [Bool.or_eq_true, decide_eq_true_eq, not_or] at hguard
    exact hguard.1 (by rw [hnil]; rfl)

theorem matchAmountOnly_of_dateDesc (l : List Char) (x : List Char × List Char)
    (h : matchDateDesc l = some x) : matchAmountOnly l = false := by
  obtain ⟨c, t, rfl, hc⟩ := matchDateDesc_head l x h
  have h1 : c ≠ '-' := by
    intro he; subst he; exact absurd hc (by decide)
  have h2 : c ≠ '$' := by
    intro he; subst he; exact absurd hc (by decide)
  unfold matchAmountOnly
  split
  · next heq => injection heq with e1 _; exact absurd e1 h1
  · next heq => injection heq with e1 _; exact absurd e1 h2
  · rfl

/-- Every iteration of the inline loop either leaves the state unchanged
or appends exactly one keyed transaction whose key was unseen and whose
date has the shape the date regex admits. -/
theorem inlineStep_cases (bank card : String) (lines : List String) (st : PState)
    (i : Nat) :
    inlineStep bank card lines st i = st ∨
    ∃ k tx, memB st.seen k = false ∧
      inlineStep bank card lines st i = ⟨st.emitted ++ [(k, tx)], k :: st.seen⟩ ∧
      dateShapeB tx.date = true := by
  unfold inlineStep
  dsimp only
  split
  · exact Or.inl rfl
  · next dt rawDesc hm =>
    split
    · exact Or.inl rfl
    · split
      · exact Or.inl rfl
      · split
        · exact Or.inl rfl
        · next isCred amt hr =>
          split
          · exact Or.inl rfl
          · split
            · exact Or.inl rfl
            · split
              · exact Or.inl rfl
              · next hmem =>
                exact Or.inr ⟨_, _, by simpa using hmem, rfl,
                  matchDateDesc_shape _ _ _ hm⟩

/-- The analogous characterization of the split-layout loop. -/
theorem f2Step_cases (bank card : String) (lines : List String) (st : PState)
    (i : Nat) :
    f2Step bank card lines st i = st ∨
    ∃ k tx, memB st.seen k = false ∧
      f2Step bank card lines st i = ⟨st.emitted ++ [(k, tx)], k :: st.seen⟩ ∧
      dateShapeB tx.date = true := by
  unfold f2Step
  dsimp only
  split
  · split
    · exact Or.inl rfl
    · next dt hm =>
      split
      · exact Or.inl rfl
      · split
        · exact Or.inl rfl
        · split
          · exact Or.inl rfl
          · split
            · exact Or.inl rfl
            · next hmem =>
              exact Or.inr ⟨_, _, by simpa using hmem, rfl,
                matchDateOnly_shape _ _ hm⟩
  · exact Or.inl rfl

theorem foldl_preserve {α β : Type} (f : β → α → β) (P : β → Prop)
    (hstep : ∀ b a, P b → P (f b a)) :
    ∀ (l : List α) (b : β), P b → P (l.foldl f b) := by
  intro l
  induction l with
  | nil => intro b h; exact h
  | cons a t ih => intro b h; exact ih _ (hstep b a h)

/-! ## Invariants of the folds -/

def emittedOkP (st : PState) : Prop :=
  ∀ p ∈ st.emitted, dateShapeB (p.2).date = true

theorem inlineStep_emittedOk (bank card : String) (lines : List String)
    (st : PState) (i : Nat) (h : emittedOkP st) :
    emittedOkP (inlineStep bank card lines st i) := by
  rcases inlineStep_cases bank card lines st i with heq | ⟨k, tx, -, heq, hd⟩
  · rw [heq]; exact h
  · rw [heq]
    intro p hp
    rcases List.mem_append.1 hp with h1 | h2
    · exact h p h1
    · rcases List.mem_singleton.1 h2 with rfl
      exact hd

theorem f2Step_emittedOk (bank card : String) (lines : List String)
    (st : PState) (i : Nat) (h : emittedOkP st) :
    emittedOkP (f2Step bank card lines st i) := by
  rcases f2Step_cases bank card lines st i with heq | ⟨k, tx, -, heq, hd⟩
  · rw [heq]; exact h
  · rw [heq]
    intro p hp
    rcases List.mem_append.1 hp with h1 | h2
    · exact h p h1
    · rcases List.mem_singleton.1 h2 with rfl
      exact hd

theorem inlineFold_emittedOk (bank card : String) (lines : List String) :
    emittedOkP (inlineFold bank card lines) :=
  foldl_preserve _ emittedOkP (inlineStep_emittedOk bank card lines) _ _
    (fun _ hp => absurd hp (List.not_mem_nil _))

theorem memB_cons_self (s : List String) (k : String) : memB (k :: s) k = true := by
  simp [memB]

theorem memB_cons_of (s : List String) (k x : String) (h : memB s x = true) :
    memB (k :: s) x = true := by
  simp only [memB, List.any_cons, Bool.or_eq_true] at h ⊢
  exact Or.inr h

def keysOkP (st : PState) : Prop :=
  (st.emitted.map Prod.fst).Nodup ∧
    ∀ k ∈ st.emitted.map Prod.fst, memB st.seen k = true

theorem keysOkP_append (st : PState) (k : String) (tx : Tx)
    (hk : memB st.seen k = false) (h : keysOkP st) :
    keysOkP (⟨st.emitted ++ [(k, tx)], k :: st.seen⟩ : PState) := by
  obtain ⟨hnd, hmem⟩ := h
  constructor
  · simp only [List.map_append, List.map_cons, List.map_nil]
    rw [List.nodup_append]
    refine ⟨hnd, List.nodup_singleton k, ?_⟩
    intro a ha hb
    rcases List.mem_singleton.1 hb with rfl
    have := hmem a ha
    rw [this] at hk
    exact absurd hk (by decide)
  · intro x hx
    simp only [List.map_append, List.map_cons, List.map_nil] at hx
    rcases List.mem_append.1 hx with h1 | h2
    · exact memB_cons_of _ _ _ (hmem x h1)
    · rcases List.mem_singleton.1 h2 with rfl
      exact memB_cons_self _ _

theorem inlineStep_keysOk (bank card : String) (lines : List String)
    (st : PState) (i : Nat) (h : keysOkP st) :
    keysOkP (inlineStep bank card lines st i) := by
  rcases inlineStep_cases bank card lines st i with heq | ⟨k, tx, hk, heq, -⟩
  · rw [heq]; exact h
  · rw [heq]; exact keysOkP_append st k tx hk h

theorem f2Step_keysOk (bank card : String) (lines : List String)
    (st : PState) (i : Nat) (h : keysOkP st) :
    keysOkP (f2Step bank card lines st i) := by
  rcases f2Step_cases bank card lines st i with heq | ⟨k, tx, hk, heq, -⟩
  · rw [heq]; exact h
  · rw [heq]; exact keysOkP_append st k tx hk h

theorem keysOkP_nil : keysOkP (⟨[], []⟩ : PState) := by
  constructor
  · simp
  · intro k hk
    simp at hk

theorem inlineFold_keysOk (bank card : String) (lines : List String) :
    keysOkP (inlineFold bank card lines) :=
  foldl_preserve _ keysOkP (inlineStep_keysOk bank card lines) _ _ keysOkP_nil

/-- The split-layout fold only appends to the emitted list. -/
theorem f2Foldl_extendsEmitted (bank card : String) (lines : List String) :
    ∀ (is : List Nat) (st : PState),
      ∃ suf, (is.foldl (f2Step bank card lines) st).emitted = st.emitted ++ suf := by
  intro is
  induction is with
  | nil => intro st; exact ⟨[], by simp⟩
  | cons i t ih =>
    intro st
    rcases f2Step_cases bank card lines st i with heq | ⟨k, tx, -, heq, -⟩
    · obtain ⟨suf, hs⟩ := ih (f2Step bank card lines st i)
      exact ⟨suf, by rw [List.foldl_cons, hs, heq]⟩
    · obtain ⟨suf, hs⟩ := ih (f2Step bank card lines st i)
      refine ⟨[(k, tx)] ++ suf, ?_⟩
      rw [List.foldl_cons, hs, heq]
      simp

theorem f2Fold_extendsEmitted (bank card : String) (lines : List String)
    (st : PState) :
    ∃ suf, (f2Fold bank card lines st).emitted = st.emitted ++ suf :=
  f2Foldl_extendsEmitted bank card lines _ st

/-! ## Bank of America invariants -/

/-- The date of an emitted Bank of America transaction: a prefix token,
a slash, then either the statement year or its predecessor numeral. -/
def bofaDateOk (stY : String) (d : String) : Prop :=
  ∃ md, d = String.mk (md ++ '/' :: stY.data) ∨
    d = String.mk (md ++ '/' :: intStrL (pyIntD stY.data - 1))

theorem bofaStep_cases (card stY : String) (stM : Option Nat) (st : BState)
    (line : String) :
    ((bofaStep card stY stM st line).emitted = st.emitted ∧
      (bofaStep card stY stM st line).seen = st.seen) ∨
    ∃ k tx, memB st.seen k = false ∧
      bofaStep card stY stM st line =
        { st with emitted := st.emitted ++ [(k, tx)], seen := k :: st.seen } ∧
      bofaDateOk stY tx.date := by
  unfold bofaStep
  dsimp only
  split
  · exact Or.inl ⟨rfl, rfl⟩
  · split
    · exact Or.inl ⟨rfl, rfl⟩
    · split
      · exact Or.inl ⟨rfl, rfl⟩
      · next td desc3 amt hm =>
        split
        · exact Or.inl ⟨rfl, rfl⟩
        · next M =>
          split
          · exact Or.inl ⟨rfl, rfl⟩
          · split
            · exact Or.inl ⟨rfl, rfl⟩
            · next hmem =>
              refine Or.inr ⟨_, _, by simpa using hmem, rfl, ⟨td, ?_⟩⟩
              by_cases hc :
                  M < pyNatDigits (td.takeWhile (fun c => c ≠ '/'))
              · right
                unfold bofaYear
                rw [if_pos hc]
              · left
                unfold bofaYear
                rw [if_neg hc]

def bofaEmittedOkP (stY : String) (st : BState) : Prop :=
  ∀ p ∈ st.emitted, bofaDateOk stY (p.2).date

theorem bofaStep_emittedOk (card stY : String) (stM : Option Nat) (st : BState)
    (line : String) (h : bofaEmittedOkP stY st) :
    bofaEmittedOkP stY (bofaStep card stY stM st line) := by
  rcases bofaStep_cases card stY stM st line with ⟨he, -⟩ | ⟨k, tx, -, heq, hd⟩
  · intro p hp
    rw [he] at hp
    exact h p hp
  · rw [heq]
    intro p hp
    rcases List.mem_append.1 hp with h1 | h2
    · exact h p h1
    · rcases List.mem_singleton.1 h2 with rfl
      exact hd

theorem bofaScan_emittedOk (card stY : String) (stM : Option Nat)
    (lines : List String) (start : Nat) :
    bofaEmittedOkP stY (bofaScan card lines start stY stM) :=
  foldl_preserve _ (bofaEmittedOkP stY) (bofaStep_emittedOk card stY stM) _ _
    (fun _ hp => absurd hp (List.not_mem_nil _))

def bofaKeysOkP (st : BState) : Prop :=
  (st.emitted.map Prod.fst).Nodup ∧
    ∀ k ∈ st.emitted.map Prod.fst, memB st.seen k = true

theorem bofaStep_keysOk (card stY : String) (stM : Option Nat) (st : BState)
    (line : String) (h : bofaKeysOkP st) :
    bofaKeysOkP (bofaStep card stY stM st line) := by
  rcases bofaStep_cases card stY stM st line with ⟨he, hs⟩ | ⟨k, tx, hk, heq, -⟩
  · obtain ⟨hnd, hmem⟩ := h
    constructor
    · rw [he]; exact hnd
    · intro x hx
      rw [he] at hx
      rw [hs]
      exact hmem x hx
  · rw [heq]
    obtain ⟨hnd, hmem⟩ := h
    constructor
    · simp only [List.map_append, List.map_cons, List.map_nil]
      rw [List.nodup_append]
      refine ⟨hnd, List.nodup_singleton k, ?_⟩
      intro a ha hb
      rcases List.mem_singleton.1 hb with rfl
      have := hmem a ha
      rw [this] at hk
      exact absurd hk (by decide)
    · intro x hx
      simp only [List.map_append, List.map_cons, List.map_nil] at hx
      rcases List.mem_append.1 hx with h1 | h2
      · exact memB_cons_of _ _ _ (hmem x h1)
      · rcases List.mem_singleton.1 h2 with rfl
        exact memB_cons_self _ _

theorem bofaScan_keysOk (card stY : String) (stM : Option Nat)
    (lines : List String) (start : Nat) :
    bofaKeysOkP (bofaScan card lines start stY stM) := by
  apply foldl_preserve _ bofaKeysOkP (bofaStep_keysOk card stY stM)
  constructor
  · simp
  · intro k hk
    simp at hk

/-! ## Sortedness of the aggregator -/

theorem lexLt_asymm : ∀ x y : List Char, lexLtC x y = true → lexLtC y x = false := by
  intro x
  induction x with
  | nil =>
    intro y h
    cases y with
    | nil => exact absurd h (by simp [lexLtC])
    | cons b ys => simp [lexLtC]
  | cons a xs ih =>
    intro y h
    cases y with
    | nil => exact absurd h (by simp [lexLtC])
    | cons b ys =>
      simp only [lexLtC] at h ⊢
      by_cases h1 : a.toNat < b.toNat
      · have h2 : ¬b.toNat < a.toNat := by omega
        simp [h1, h2]
      · by_cases h2 : b.toNat < a.toNat
        · simp [h1, h2] at h
        · simp only [h1, h2, if_false] at h ⊢
          exact ih ys h

theorem chainGe_cons_cons (a b : Tx) (r : List Tx) :
    chainGe (a :: b :: r) = (dateGeB a b && chainGe (b :: r)) := rfl

theorem insDesc_cons (t v : Tx) (vs : List Tx) :
    insDesc t (v :: vs) =
      if lexLtC v.date.data t.date.data then t :: v :: vs
      else v :: insDesc t vs := rfl

theorem insDesc_chain_aux (t : Tx) :
    ∀ (us : List Tx) (u : Tx), lexLtC u.date.data t.date.data = false →
      chainGe (u :: us) = true → chainGe (u :: insDesc t us) = true := by
  intro us
  induction us with
  | nil =>
    intro u hu _
    show chainGe (u :: [t]) = true
    simp [chainGe, dateGeB, hu]
  | cons v vs ih =>
    intro u hu hch
    rw [chainGe_cons_cons] at hch
    obtain ⟨huv, hch2⟩ := Bool.and_eq_true_iff.mp hch
    rw [insDesc_cons]
    by_cases hvt : lexLtC v.date.data t.date.data
    · rw [if_pos hvt]
      rw [chainGe_cons_cons, chainGe_cons_cons]
      refine Bool.and_eq_true_iff.mpr ⟨?_, Bool.and_eq_true_iff.mpr ⟨?_, hch2⟩⟩
      · simp [dateGeB, hu]
      · simp [dateGeB, lexLt_asymm _ _ hvt]
    · rw [if_neg hvt]
      rw [chainGe_cons_cons]
      refine Bool.and_eq_true_iff.mpr ⟨huv, ?_⟩
      exact ih v (by simpa using hvt) hch2

theorem insDesc_chain (t : Tx) (l : List Tx) (h : chainGe l = true) :
    chainGe (insDesc t l) = true := by
  cases l with
  | nil => rfl
  | cons u us =>
    rw [insDesc_cons]
    by_cases hut : lexLtC u.date.data t.date.data
    · rw [if_pos hut]
      rw [chainGe_cons_cons]
      refine Bool.and_eq_true_iff.mpr ⟨?_, h⟩
      simp [dateGeB, lexLt_asymm _ _ hut]
    · rw [if_neg hut]
      exact insDesc_chain_aux t us u (by simpa using hut) h

theorem sortDesc_chain (ts : List Tx) : chainGe (sortDesc ts) = true := by
  have key : ∀ (l acc : List Tx), chainGe acc = true →
      chainGe (l.foldl (fun acc t => insDesc t acc) acc) = true := by
    intro l
    induction l with
    | nil => intro acc h; exact h
    | cons t rest ih => intro acc h; exact ih _ (insDesc_chain t acc h)
  exact key ts [] rfl

/-! ## The missing-marker case of the Bank of America parser -/

theorem findStart_none :
    ∀ (ls : List String) (i : Nat),
      (ls.all
        (fun l => !(containsC l.data markerChars && !(searchDollarB l.data)))) = true →
      findStart ls i = none := by
  intro ls
  induction ls with
  | nil => intro i _; rfl
  | cons l rest ih =>
    intro i h
    rw [List.all_cons] at h
    obtain ⟨h1, h2⟩ := Bool.and_eq_true_iff.mp h
    have hcond : ¬(containsC l.data markerChars && !(searchDollarB l.data)) = true := by
      intro hc
      rw [hc] at h1
      exact absurd h1 (by decide)
    unfold findStart
    rw [if_neg hcond]
    exact ih (i + 1) h2

/-! ## Totality of the merchant extractor -/

theorem merchant_table_names : ∀ p ∈ MERCHANT_PATTERNS, p.2 ≠ "" := by decide

theorem extractMerchant_ne_empty (s : String) : extractMerchant s ≠ "" := by
  unfold extractMerchant
  split
  · decide
  · split
    · next e hfind =>
      exact merchant_table_names e (List.mem_of_find?_eq_some hfind)
    · split
      · next m hm =>
        split
        · decide
        · next hne => exact hne
      · decide

/-! ## Date shape of the Amex and Bank of America outputs -/

theorem bankStatementParse_dates (bank card text : String) :
    ∀ t ∈ bankStatementParse bank card text, dateShapeB t.date = true := by
  intro t ht
  obtain ⟨p, hp, rfl⟩ := List.mem_map.1 ht
  exact inlineFold_emittedOk bank card (splitLines text) p hp

theorem amexParse_dates (card text : String) :
    ∀ t ∈ amexParse card text, dateShapeB t.date = true := by
  intro t ht
  unfold amexParse at ht
  dsimp only at ht
  obtain ⟨p, hp, rfl⟩ := List.mem_map.1 ht
  by_cases h5 : (inlineFold amexBankName card (splitLines text)).emitted.length < 5
  · rw [if_pos h5] at hp
    have hok : emittedOkP
        (f2Fold amexBankName card (splitLines text)
          (inlineFold amexBankName card (splitLines text))) :=
      foldl_preserve _ emittedOkP (f2Step_emittedOk amexBankName card (splitLines text))
        _ _ (inlineFold_emittedOk amexBankName card (splitLines text))
    exact hok p hp
  · rw [if_neg h5] at hp
    exact inlineFold_emittedOk amexBankName card (splitLines text) p hp

theorem bofaParse_dates (card text : String) (ts : List Tx)
    (h : bofaParse card text = some ts) :
    ∀ t ∈ ts, bofaDateOk (bofaMeta (splitLines text)).1 t.date := by
  unfold bofaParse at h
  dsimp only at h
  split at h
  · injection h with h
    subst h
    intro t ht
    exact absurd ht (List.not_mem_nil t)
  · split at h
    · exact absurd h (by simp)
    · injection h with h
      subst h
      intro t ht
      obtain ⟨p, hp, rfl⟩ := List.mem_map.1 ht
      exact bofaScan_emittedOk card (bofaMeta (splitLines text)).1
        (bofaMeta (splitLines text)).2 (splitLines text) _ p hp

/-! ## Claim theorems -/

/-- Claim C1, counterexample: the inline pass copies a two-digit source
year into the emitted record, so not every transaction carries a
four-digit year; the claim fails on the end-to-end scenario input. -/
theorem claimC1_counterexample :
    ((bankStatementParse "American Express" "Gold Card" c5Text).all
      (fun t => fourDigitYearB t.date)) = false := by decide

/-- Claim C1 as amended: dates emitted by BankStatementParser and
AmexParser keep the source token year of two to four digits, and only
BankOfAmericaParser resolves a year, appending the statement header year
or its predecessor numeral to the month-day token. -/
theorem claimC1_amended :
    (∀ bank card text : String, ∀ t ∈ bankStatementParse bank card text,
      dateShapeB t.date = true) ∧
    (∀ card text : String, ∀ t ∈ amexParse card text,
      dateShapeB t.date = true) ∧
    (∀ card text : String, ∀ ts : List Tx, bofaParse card text = some ts →
      ∀ t ∈ ts, bofaDateOk (bofaMeta (splitLines text)).1 t.date) :=
  ⟨bankStatementParse_dates, amexParse_dates, bofaParse_dates⟩

def c1WitTx : Tx :=
  { date := "08/15/24", description := "WALMART.COM 800-925-6278",
    amount := "45.23", bank := "American Express", card := "Gold Card" }

def c4WitTxA : Tx :=
  { date := "07/05/2025", description := "STORE NAME", amount := "21.50",
    bank := bofaBankName, card := "Card" }

/-- Witness discharging the membership hypotheses of the amended claim
C1 at a concrete Amex statement and a concrete Bank of America one. -/
theorem claimC1_amended_witness :
    dateShapeB c1WitTx.date = true ∧
    bofaDateOk (bofaMeta (splitLines c4TextA)).1 c4WitTxA.date :=
  ⟨claimC1_amended.1 "American Express" "Gold Card" c5Text c1WitTx (by decide),
   claimC1_amended.2.2 "Card" c4TextA [c4WitTxA] (by decide) c4WitTxA (by decide)⟩

/-- Claim C2, counterexample: the aggregator sorts by the date string,
which is not reverse-chronological across a year boundary; a December
2024 transaction is placed before a January 2025 one. -/
theorem claimC2_counterexample :
    chainCalGe (aggregateTransactions
      [bankStatementParse "B" "C" c2TextA,
       bankStatementParse "B" "C" c2TextB]) = false := by decide

/-- Claim C2 as amended: the merged output is ordered by descending
lexicographic comparison of the date strings, month first, so the order
coincides with reverse chronology only within a common year of equally
padded tokens. -/
theorem claimC2_amended :
    ∀ tss : List (List Tx), chainGe (aggregateTransactions tss) = true :=
  fun tss => sortDesc_chain tss.flatten

/-- Claim C3: in the inline-date layout a following line of minus dollar
53.97 yields amount -53.97, of dollar 53.97 yields 53.97, and of the
digit-run hyphen notation yields a negative amount with the thousands
separator removed; the credit notation takes priority, as the fourth
conjunct shows on a line where the standard notation would match
earlier. -/
theorem claimC3 : ∀ bank card : String,
    (bankStatementParse bank card "01/02/24 SOME SHOP\n-$53.97").map Tx.amount =
      ["-53.97"] ∧
    (bankStatementParse bank card "01/02/24 SOME SHOP\n$53.97").map Tx.amount =
      ["53.97"] ∧
    (bankStatementParse bank card
      "01/02/24 SOME SHOP\n8009256278-$2,436.94").map Tx.amount = ["-2436.94"] ∧
    (bankStatementParse bank card
      "01/02/24 SOME SHOP\n1.23 456-$7.89").map Tx.amount = ["-7.89"] := by
  intro bank card
  exact ⟨rfl, rfl, rfl, rfl⟩

/-- Claim C4: the Bank of America year resolver assigns the previous
year exactly when the transaction month exceeds the statement closing
month, checked end to end on a December closing with a July transaction
and a January closing with a December transaction. -/
theorem claimC4 :
    (∀ (Y : String) (M m : Nat),
      bofaYear Y m M = if M < m then intStrL (pyIntD Y.data - 1) else Y.data) ∧
    bofaYear "2025" 7 12 = ("2025" : String).data ∧
    bofaYear "2025" 12 1 = ("2024" : String).data ∧
    (∀ card : String,
      (bofaParse card c4TextA).map (fun ts => ts.map Tx.date) =
        some ["07/05/2025"]) ∧
    (∀ card : String,
      (bofaParse card c4TextB).map (fun ts => ts.map Tx.date) =
        some ["12/05/2024"]) :=
  ⟨fun _ _ _ => rfl, by decide, by decide, fun _ => rfl, fun _ => rfl⟩

/-- Claim C5, counterexample: on the end-to-end scenario input the
emitted record has date 08/15/24 rather than 08/15/2024 and keeps the
hyphenated phone number in the description, because the cleanup only
strips unbroken digit runs of ten or more. -/
theorem claimC5_counterexample :
    ((bankStatementParse "American Express" "Gold Card" c5Text).map
      (fun t => (t.date, t.description))) ≠ [("08/15/2024", "WALMART.COM")] := by
  decide

/-- Claim C5 as amended: the scenario yields exactly one transaction
with the date token copied verbatim, the description with the phone
number retained, and amount 45.23. -/
theorem claimC5_amended : ∀ bank card : String,
    bankStatementParse bank card c5Text =
      [{ date := "08/15/24", description := "WALMART.COM 800-925-6278",
         amount := "45.23", bank := bank, card := card }] ∧
    amexParse card c5Text =
      [{ date := "08/15/24", description := "WALMART.COM 800-925-6278",
         amount := "45.23", bank := amexBankName, card := card }] := by
  intro bank card
  exact ⟨rfl, rfl⟩

/-- Claim C6, counterexample: the dedup key uses the raw matched amount,
so the same amount written once with and once without a thousands
separator produces two records with an identical date, description and
amount triple. -/
theorem claimC6_counterexample :
    tripleDistinctB (bankStatementParse "B" "C" c6Text) = false ∧
    (bankStatementParse "B" "C" c6Text).length = 2 :=
  ⟨by decide, by decide⟩

/-- Claim C6 as amended: within one parse the dedup keys, built from the
date, the cleaned description and the raw matched amount text, are
pairwise distinct: the first candidate with a key is kept and every
later candidate with the same key is dropped. -/
theorem claimC6_amended :
    (∀ bank card text : String,
      ((inlineFold bank card (splitLines text)).emitted.map Prod.fst).Nodup) ∧
    (∀ (card stY : String) (stM : Option Nat) (lines : List String) (start : Nat),
      ((bofaScan card lines start stY stM).emitted.map Prod.fst).Nodup) :=
  ⟨fun b c t => (inlineFold_keysOk b c (splitLines t)).1,
   fun c y m ls s => (bofaScan_keysOk c y m ls s).1⟩

/-- Claim C7: the Amex strategy runs the split layout pass exactly when
the inline pass yielded fewer than five transactions, the split results
are appended to the inline results under the shared seen-key set, and
otherwise the result is the inline pass alone. -/
theorem claimC7 : ∀ card text : String,
    ((inlineFold amexBankName card (splitLines text)).emitted.length < 5 ∧
      amexParse card text =
        ((f2Fold amexBankName card (splitLines text)
          (inlineFold amexBankName card (splitLines text))).emitted.map Prod.snd) ∧
      ∃ extra, amexParse card text =
        bankStatementParse amexBankName card text ++ extra) ∨
    (5 ≤ (inlineFold amexBankName card (splitLines text)).emitted.length ∧
      amexParse card text = bankStatementParse amexBankName card text) := by
  intro card text
  by_cases h5 : (inlineFold amexBankName card (splitLines text)).emitted.length < 5
  · left
    refine ⟨h5, ?_, ?_⟩
    · unfold amexParse
      dsimp only
      rw [if_pos h5]
    · obtain ⟨suf, hs⟩ := f2Fold_extendsEmitted amexBankName card (splitLines text)
        (inlineFold amexBankName card (splitLines text))
      refine ⟨suf.map Prod.snd, ?_⟩
      unfold amexParse bankStatementParse
      dsimp only
      rw [if_pos h5, hs, List.map_append]
  · right
    refine ⟨Nat.le_of_not_lt h5, ?_⟩
    unfold amexParse bankStatementParse
    dsimp only
    rw [if_neg h5]

/-- Claim C8: a line that starts with a date token and whose description
contains a payment keyword produces no transaction anchored at that line
in either layout: the inline step skips it and the split step never
anchors at a line that is not an amount-only line. -/
theorem claimC8 : ∀ (bank card : String) (lines : List String) (i : Nat)
    (st : PState) (dt rawDesc : List Char),
    matchDateDesc (pyStrip ((lineAt lines i).data)) = some (dt, rawDesc) →
    kwHitB (pyStrip rawDesc) = true →
    inlineStep bank card lines st i = st ∧ f2Step bank card lines st i = st := by
  intro bank card lines i st dt rawDesc hm hk
  constructor
  · unfold inlineStep
    dsimp only
    rw [hm]
    dsimp only
    rw [if_pos hk]
    split
    · rfl
    · rfl
  · unfold f2Step
    dsimp only
    rw [matchAmountOnly_of_dateDesc _ _ hm]
    simp

def c8Lines : List String := ["01/02/24 AUTOPAY THANK YOU", "$5.00"]

/-- Witness discharging the hypotheses of claim C8 on a concrete dated
payment line followed by an amount line. -/
theorem claimC8_witness :
    inlineStep "B" "C" c8Lines ⟨[], []⟩ 0 = ⟨[], []⟩ ∧
    f2Step "B" "C" c8Lines ⟨[], []⟩ 0 = ⟨[], []⟩ :=
  claimC8 "B" "C" c8Lines 0 ⟨[], []⟩ ("01/02/24" : String).data
    ("AUTOPAY THANK YOU" : String).data (by decide) (by decide)

/-- Claim C9: the merchant extractor is total and never returns an empty
label, and it maps the three scenario descriptions to Uber, Netflix and
the stable heuristic label of the unmatched description. -/
theorem claimC9 :
    (∀ s : String, extractMerchant s ≠ "") ∧
    extractMerchant "UBER EATS help.uber.com CA" = "Uber" ∧
    extractMerchant "NETFLIX.COM 866-579-7172 CA" = "Netflix" ∧
    extractMerchant "ACME WIDGET CO 4521 PLANO TX" = "ACME WIDGET CO" :=
  ⟨extractMerchant_ne_empty, by decide, by decide, by decide⟩

/-- Claim C10: when no line carries the section marker without a dollar
amount, the Bank of America parser returns the empty list and no error. -/
theorem claimC10 : ∀ card text : String,
    ((splitLines text).all
      (fun l => !(containsC l.data markerChars && !(searchDollarB l.data)))) = true →
    bofaParse card text = some [] := by
  intro card text h
  unfold bofaParse
  dsimp only
  rw [findStart_none _ 0 h]

/-- Witness discharging the hypothesis of claim C10 on a concrete text
without the marker. -/
theorem claimC10_witness : bofaParse "C" "hello\nworld" = some [] :=
  claimC10 "C" "hello\nworld" (by decide)

end Expenses










